import Mathlib

/-!
Verification of the PR staleness checker's core logic: the CODEOWNERS glob
compiler (`parsePattern`), ownership resolution (`getCodeOwnerTeams`),
business-day arithmetic (`getBusinessDays`), review-state metrics
(`calculateMetrics`), the triage classifier and the attention classifier
(both `getPRStatus` variants).

The JavaScript `RegExp` values produced by `parsePattern` are modelled by a
small regular-expression AST with Brzozowski-derivative matching.  The only
regex constructs the source emits are literals, `.` (any character except a
line terminator), `[^/]`, concatenation, alternation (from the `(?:...)?`
groups) and Kleene star, so the AST below covers the emitted language
exactly.  JavaScript `Date` values are modelled at day granularity plus a
time-of-day component, which is what the source observes after its
`setHours(0,0,0,0)` truncation and its millisecond comparisons.
-/

namespace PRC

/-- Regular-expression AST covering exactly the constructs emitted by the
source's `parsePattern`: `zero` matches nothing, `one` the empty string,
`lit c` a single literal character, `anyc` is JavaScript `.` (any character
except a line terminator), `nsep` is `[^/]`, plus concatenation,
alternation and Kleene star. -/
inductive RE where
  | zero : RE
  | one : RE
  | lit : Char → RE
  | anyc : RE
  | nsep : RE
  | cat : RE → RE → RE
  | alt : RE → RE → RE
  | star : RE → RE
deriving Repr, DecidableEq

/-- JavaScript line terminators, which `.` does not match. -/
def isLineTerm (c : Char) : Bool :=
  c = '\n' || c = '\r' || c = '\u2028' || c = '\u2029'

/-- Does the expression accept the empty string? -/
def RE.nullable : RE → Bool
  | .zero => false
  | .one => true
  | .lit _ => false
  | .anyc => false
  | .nsep => false
  | .cat a b => a.nullable && b.nullable
  | .alt a b => a.nullable || b.nullable
  | .star _ => true

/-- Brzozowski derivative of an expression by one character. -/
def RE.deriv : RE → Char → RE
  | .zero, _ => .zero
  | .one, _ => .zero
  | .lit c, d => if c = d then .one else .zero
  | .anyc, d => if isLineTerm d then .zero else .one
  | .nsep, d => if d = '/' then .zero else .one
  | .cat a b, d =>
      if a.nullable then .alt (.cat (a.deriv d) b) (b.deriv d)
      else .cat (a.deriv d) b
  | .alt a b, d => .alt (a.deriv d) (b.deriv d)
  | .star a, d => .cat (a.deriv d) (.star a)

/-- Anchored (whole-string) matching by repeated derivatives, the executable
counterpart of JavaScript `regex.test` for the `^...$`-anchored regexes the
source builds. -/
def matchList (r : RE) (s : List Char) : Bool :=
  (s.foldl RE.deriv r).nullable

/-- Declarative acceptance semantics of the AST. -/
inductive Accepts : RE → List Char → Prop where
  | one : Accepts .one []
  | lit (c : Char) : Accepts (.lit c) [c]
  | anyc (c : Char) (h : isLineTerm c = false) : Accepts .anyc [c]
  | nsep (c : Char) (h : c ≠ '/') : Accepts .nsep [c]
  | cat {a b : RE} {s t : List Char} :
      Accepts a s → Accepts b t → Accepts (.cat a b) (s ++ t)
  | altl {a b : RE} {s : List Char} : Accepts a s → Accepts (.alt a b) s
  | altr {a b : RE} {s : List Char} : Accepts b s → Accepts (.alt a b) s
  | starNil {a : RE} : Accepts (.star a) []
  | starCat {a : RE} {s t : List Char} :
      Accepts a s → Accepts (.star a) t → Accepts (.star a) (s ++ t)

/-- One-or-more repetition, how the source spells `x+` (as `xx*`). -/
def rePlus (r : RE) : RE := .cat r (.star r)

/-- Zero-or-one, how the source's `(?:...)?` groups are modelled. -/
def reOpt (r : RE) : RE := .alt .one r

/-- Concatenation of a whole list of expression pieces, mirroring the
source's `re.join("")` over the accumulated regex fragments. -/
def catList (l : List RE) : RE := l.foldr RE.cat RE.one

/-- Does the segment list start with three consecutive asterisks?  Helper
for `hasTripleStar`. -/
def startsTriple : List Char → Bool
  | a :: b :: c :: _ => a = '*' && b = '*' && c = '*'
  | _ => false

/-- Model of `pattern.includes("***")`: some position starts three
consecutive asterisks. -/
def hasTripleStar : List Char → Bool
  | [] => false
  | c :: rest => startsTriple (c :: rest) || hasTripleStar rest

/-- Model of JavaScript `pattern.split("/")` on character lists: splits at
every separator, keeping empty segments, and yields `[[]]` on the empty
string. -/
def splitSeg : List Char → List (List Char)
  | [] => [[]]
  | c :: rest =>
    match splitSeg rest with
    | [] => [[c]]
    | s :: ss => if c = '/' then [] :: s :: ss else (c :: s) :: ss

/-- Character-by-character translation of an ordinary (non-`**`, non-`*`)
segment, from the source's default `switch` branch: `\` escapes the next
character, `*` becomes `[^/]*`, `?` becomes `[^/]`, everything else is a
regex-escaped literal.  The Boolean is the escape flag. -/
def escSeg : List Char → Bool → List RE
  | [], _ => []
  | c :: rest, true => RE.lit c :: escSeg rest false
  | c :: rest, false =>
    if c = '\\' then escSeg rest true
    else if c = '*' then RE.star RE.nsep :: escSeg rest false
    else if c = '?' then RE.nsep :: escSeg rest false
    else RE.lit c :: escSeg rest false

/-- Leading-slash / single-segment normalisation from the source: a leading
empty segment (root-relative pattern) is dropped; otherwise a single bare
name, or a single name with trailing slash, gets a `**` segment prepended
unless it already is `**`. -/
def fixLead (segs : List (List Char)) : List (List Char) :=
  match segs with
  | [] => []
  | s0 :: rest =>
    if s0 = [] then rest
    else if rest = [] ∨ rest = [([] : List Char)] then
      if s0 = ['*', '*'] then s0 :: rest else ['*', '*'] :: s0 :: rest
    else s0 :: rest

/-- Trailing-slash normalisation from the source: a final empty segment is
replaced by `**`. -/
def fixTrail (segs : List (List Char)) : List (List Char) :=
  if segs.length > 1 ∧ segs.getLast? = some ([] : List Char) then
    segs.dropLast ++ [['*', '*']]
  else segs

/-- Regex fragments for one segment, given its position and the pending
`needSlash` state; returns the fragments and the updated `needSlash`,
following the source's `switch` on the segment. -/
def segPieces (seg : List Char) (isFirst isLast needSlash : Bool) :
    List RE × Bool :=
  if seg = ['*', '*'] then
    if isFirst && isLast then ([rePlus RE.anyc], needSlash)
    else if isFirst then ([reOpt (RE.cat (rePlus RE.anyc) (RE.lit '/'))], false)
    else if isLast then ([RE.lit '/', RE.star RE.anyc], needSlash)
    else ([reOpt (RE.cat (RE.lit '/') (rePlus RE.anyc))], true)
  else if seg = ['*'] then
    ((if needSlash then [RE.lit '/'] else []) ++ [rePlus RE.nsep], true)
  else
    ((if needSlash then [RE.lit '/'] else []) ++ escSeg seg false ++
      (if isLast then [reOpt (RE.cat (RE.lit '/') (RE.star RE.anyc))] else []),
      true)

/-- Left-to-right traversal of the segment list building the regex fragment
list, tracking first/last position and the `needSlash` state, as in the
source's `segments.forEach`. -/
def buildSegs : List (List Char) → Bool → Bool → List RE
  | [], _, _ => []
  | [s], isFirst, ns => (segPieces s isFirst true ns).1
  | s :: rest, isFirst, ns =>
    let p := segPieces s isFirst false ns
    p.1 ++ buildSegs rest false p.2

/-- Model of the source's `parsePattern`: rejects triple-asterisk and empty
patterns, compiles `"/"` to the never-matching-a-path regex `^$`, and
otherwise normalises the segment list and translates it. -/
def parsePattern (pattern : String) : Except String (List RE) :=
  if hasTripleStar pattern.data then
    .error "pattern cannot contain three consecutive asterisks"
  else if pattern.data = [] then .error "empty pattern"
  else if pattern.data = ['/'] then .ok []
  else .ok (buildSegs (fixTrail (fixLead (splitSeg pattern.data))) true false)

/-- `regex.test(path)` for a compiled fragment list. -/
def reTest (l : List RE) (path : String) : Bool :=
  matchList (catList l) path.data

/-- `parsePattern(p).test(path)`, with compilation failure propagated. -/
def patternTest (pattern path : String) : Except String Bool :=
  (parsePattern pattern).map (fun l => reTest l path)

/-- Is the pattern free of the two compile-time rejections? -/
def patternOk (pattern : String) : Bool :=
  !hasTripleStar pattern.data && !(pattern.data = [])

/-- Changed file of a pull request, as in the source's `GitHubFile`. -/
structure GitHubFile where
  filename : String
  additions : Nat
  deletions : Nat
  changes : Nat
  status : String
  patch : Option String
deriving Repr, DecidableEq

/-- One CODEOWNERS rule, as in the source's `CodeOwnerRule`. -/
structure CodeOwnerRule where
  pattern : String
  teams : List String
deriving Repr, DecidableEq

/-- `Set.add` on the insertion-ordered team accumulator. -/
def insertTeam (acc : List String) (t : String) : List String :=
  if t ∈ acc then acc else acc ++ [t]

/-- `rule.teams.forEach((team) => requiredTeams.add(team))`. -/
def addTeams (acc : List String) (ts : List String) : List String :=
  ts.foldl insertTeam acc

/-- Inner loop of `getCodeOwnerTeams`: for one file, test every rule,
compiling each rule's pattern on the spot; a compilation error aborts. -/
def ownerScanRules (fname : String) :
    List CodeOwnerRule → List String → Except String (List String)
  | [], acc => .ok acc
  | r :: rs, acc =>
    match parsePattern r.pattern with
    | .error e => .error e
    | .ok re => ownerScanRules fname rs
        (if reTest re fname then addTeams acc r.teams else acc)

/-- Outer loop of `getCodeOwnerTeams` over the changed files. -/
def ownerScanFiles :
    List GitHubFile → List CodeOwnerRule → List String →
      Except String (List String)
  | [], _, acc => .ok acc
  | f :: fs, rules, acc =>
    match ownerScanRules f.filename rules acc with
    | .error e => .error e
    | .ok acc2 => ownerScanFiles fs rules acc2

/-- Model of the source's `getCodeOwnerTeams`: union of the teams of every
rule matching every changed file, in insertion order; pattern-compilation
errors propagate (the source calls `parsePattern` inside the loop). -/
def getCodeOwnerTeams (files : List GitHubFile)
    (codeownerRules : List CodeOwnerRule) : Except String (List String) :=
  ownerScanFiles files codeownerRules []

/-- Specification-level matching of one rule against one file: does the
rule's pattern compile and accept the filename? -/
def ruleMatchesFile (r : CodeOwnerRule) (f : GitHubFile) : Bool :=
  match parsePattern r.pattern with
  | .ok l => reTest l f.filename
  | .error _ => false

/-- JavaScript `Date` at the granularity the source observes: the calendar
day (days since the epoch, 1970-01-01 being day 0 and a Thursday) and the
time of day.  `setHours(0,0,0,0)` keeps only `day`. -/
structure JSDate where
  day : Int
  msOfDay : Nat
deriving Repr, DecidableEq

/-- Strict `<` on instants (lexicographic on day then time of day), the
model of comparing `Date` values by their millisecond timestamps. -/
def JSDate.ltb (a b : JSDate) : Bool :=
  decide (a.day < b.day ∨ (a.day = b.day ∧ a.msOfDay < b.msOfDay))

/-- JavaScript `getDay()` for a day index: 0 is Sunday, 6 is Saturday;
day 0 (1970-01-01) is a Thursday, hence the offset 4. -/
def jsGetDay (d : Int) : Int := (d + 4) % 7

/-- Weekday test used by the source's loop: not Sunday (0), not Saturday
(6). -/
def isBusinessDay (d : Int) : Bool :=
  decide (jsGetDay d ≠ 0 ∧ jsGetDay d ≠ 6)

/-- The source's `getBusinessDays` loop after midnight truncation: count
the non-weekend days among `start, start+1, ..., end`; the `while (current
<= end)` loop runs zero times when `end < start`. -/
def weekdayCount (startDay endDay : Int) : Nat :=
  ((List.range (endDay - startDay + 1).toNat).map (fun i => startDay + i)).countP
    isBusinessDay

/-- Model of the source's `getBusinessDays`: truncate both instants to
midnight, then count the weekdays in the inclusive day range. -/
def getBusinessDays (startDate endDate : JSDate) : Nat :=
  weekdayCount startDate.day endDate.day

/-- GitHub user, as in the source's `GitHubUser`. -/
structure GitHubUser where
  login : String
  id : Nat
  avatar_url : String
  type : String
deriving Repr, DecidableEq

/-- PR label, as in the source's `GitHubLabel`. -/
structure GitHubLabel where
  name : String
  color : String
  description : Option String
deriving Repr, DecidableEq

/-- Requested reviewer team, as in the source's `GitHubTeam`. -/
structure GitHubTeam where
  name : String
  slug : String
deriving Repr, DecidableEq

/-- Review state enumeration from the source's `GitHubReview`. -/
inductive ReviewState where
  | PENDING
  | APPROVED
  | CHANGES_REQUESTED
  | COMMENTED
deriving Repr, DecidableEq

/-- One review, as in the source's `GitHubReview` (the `submitted_at`
string already parsed to an instant). -/
structure GitHubReview where
  id : Nat
  user : GitHubUser
  state : ReviewState
  body : String
  submitted_at : JSDate
deriving Repr, DecidableEq

/-- One review comment, as in the source's `GitHubComment`. -/
structure GitHubComment where
  id : Nat
  user : GitHubUser
  body : String
  created_at : JSDate
  updated_at : JSDate
deriving Repr, DecidableEq

/-- Pull request record, as in the source's `GitHubPullRequest`; the
optional fields are the ones attached in later pipeline stages. -/
structure GitHubPullRequest where
  number : Nat
  title : String
  user : GitHubUser
  created_at : JSDate
  updated_at : JSDate
  html_url : String
  draft : Bool
  assignees : List GitHubUser
  labels : List GitHubLabel
  requested_teams : Option (List GitHubTeam)
  isCommunityPR : Option Bool
  files : Option (List GitHubFile)
  codeOwnerTeams : Option (List String)
  age : Option Nat
  staleness : Option Nat
  isApproved : Option Bool
  hasChangesRequested : Option Bool
deriving Repr, DecidableEq

/-- Derived metrics record, as in the source's `PRMetrics`. -/
structure PRMetrics where
  age : Nat
  staleness : Nat
  isApproved : Bool
  hasChangesRequested : Bool
deriving Repr, DecidableEq

/-- Triage bucket with priority and display label, as in the source's
`PRStatus`. -/
structure PRStatus where
  priority : Nat
  label : String
deriving Repr, DecidableEq

/-- The configured priority-label set from the source. -/
def PRIORITY_LABELS : List String := ["🚨 urgent", "Urgent", "High priority"]

/-- One step of the source's `reviews.reduce`: keep, per author login, only
the review with the latest `submitted_at` (strictly later replaces). -/
def updateLatest (acc : List (String × GitHubReview)) (review : GitHubReview) :
    List (String × GitHubReview) :=
  match acc.find? (fun p => p.1 == review.user.login) with
  | none => acc ++ [(review.user.login, review)]
  | some p =>
    if JSDate.ltb p.2.submitted_at review.submitted_at then
      acc.map (fun q =>
        if q.1 == review.user.login then (q.1, review) else q)
    else acc

/-- The source's `latestReviewsByUser` accumulator (object keyed by login,
modelled as an insertion-ordered association list). -/
def latestReviewsByUser (reviews : List GitHubReview) :
    List (String × GitHubReview) :=
  reviews.foldl updateLatest []

/-- Most recent instant among the creation date and all activity; the
source sorts the timeline descending and takes the head, whose date is
exactly this maximum. -/
def maxDate (d : JSDate) (ds : List JSDate) : JSDate :=
  ds.foldl (fun a b => if JSDate.ltb a b then b else a) d

/-- Model of the source's `calculateMetrics` with the fetched comments and
reviews (and the current instant) passed in by the caller: business-day
age, latest-review-per-author approval state, and staleness from the most
recent activity. -/
def calculateMetrics (pr : GitHubPullRequest) (comments : List GitHubComment)
    (reviews : List GitHubReview) (now : JSDate) : PRMetrics :=
  let age := getBusinessDays pr.created_at now
  let activeReviews := (latestReviewsByUser reviews).map Prod.snd
  let isApproved := activeReviews.any (fun r => r.state == ReviewState.APPROVED)
  let hasChangesRequested :=
    activeReviews.any (fun r => r.state == ReviewState.CHANGES_REQUESTED)
  let lastActivity :=
    maxDate pr.created_at
      (comments.map (fun c => c.created_at) ++
        reviews.map (fun r => r.submitted_at))
  let staleness := getBusinessDays lastActivity now
  { age := age, staleness := staleness, isApproved := isApproved,
    hasChangesRequested := hasChangesRequested }

namespace Triage

/-- Bucket table of the triage reporting script. -/
def HIGH_PRIORITY : PRStatus := { priority := 0, label := "🚨 High Priority" }

/-- Foundation fast-track bucket. -/
def NEEDS_FOUNDATION_REVIEW : PRStatus :=
  { priority := 1, label := "⚡ Needs Foundation Review" }

/-- Platform fast-track bucket. -/
def NEEDS_PLATFORM_REVIEW : PRStatus :=
  { priority := 2, label := "🔧 Needs Platform Review" }

/-- Consumer fast-track bucket. -/
def NEEDS_CONSUMER_REVIEW : PRStatus :=
  { priority := 3, label := "👥 Needs Consumer Review" }

/-- General review bucket. -/
def NEEDS_REVIEW : PRStatus := { priority := 4, label := "👀 Needs Review" }

/-- Changes-requested bucket. -/
def CHANGES_REQUESTED : PRStatus :=
  { priority := 5, label := "🔄 Changes requested" }

/-- Approved bucket. -/
def APPROVED : PRStatus := { priority := 6, label := "✅ Approved" }

/-- Community bucket. -/
def COMMUNITY_PRS : PRStatus := { priority := 7, label := "🌟 Community PRs" }

/-- Fast-track team names from the source's `TEAMS` table. -/
def TEAMS_foundation : String := "Foundation"

/-- Platform team name. -/
def TEAMS_platform : String := "Platform"

/-- Consumer team name. -/
def TEAMS_consumer : String := "Consumer"

/-- Model of the triage script's `getPRStatus`: priority labels are checked
first, then the code-owner resolution runs (so a pattern error propagates
from here), then the community flag, review state, and single-owner
fast-track checks, in source order. -/
def getPRStatus (pr : GitHubPullRequest)
    (codeownerRules : List CodeOwnerRule) : Except String PRStatus :=
  if pr.labels.any (fun label => PRIORITY_LABELS.contains label.name) then
    .ok HIGH_PRIORITY
  else
    match getCodeOwnerTeams (pr.files.getD []) codeownerRules with
    | .error e => .error e
    | .ok codeOwnerTeams =>
      let codeOwnerTeamsLower := codeOwnerTeams.map String.toLower
      let onlyOneCodeOwner := codeOwnerTeamsLower.length == 1
      if pr.isCommunityPR.getD false then .ok COMMUNITY_PRS
      else if pr.hasChangesRequested.getD false then .ok CHANGES_REQUESTED
      else if pr.isApproved.getD false then .ok APPROVED
      else if codeOwnerTeamsLower.contains TEAMS_foundation.toLower &&
          onlyOneCodeOwner then .ok NEEDS_FOUNDATION_REVIEW
      else if codeOwnerTeamsLower.contains TEAMS_platform.toLower &&
          onlyOneCodeOwner then .ok NEEDS_PLATFORM_REVIEW
      else if codeOwnerTeamsLower.contains TEAMS_consumer.toLower &&
          onlyOneCodeOwner then .ok NEEDS_CONSUMER_REVIEW
      else .ok NEEDS_REVIEW

end Triage

namespace Attention

/-- Model of the attention script's `meetsAttentionCriteria`: a draft needs
both a week of age and a week without activity; a non-draft only the
latter. -/
def meetsAttentionCriteria (pr : GitHubPullRequest) : Bool :=
  if pr.draft then
    decide (7 ≤ pr.age.getD 0 ∧ 7 ≤ pr.staleness.getD 0)
  else
    decide (7 ≤ pr.staleness.getD 0)

/-- Model of the attention script's `isDraftStuck`. -/
def isDraftStuck (pr : GitHubPullRequest) : Bool :=
  if !pr.draft then false
  else decide (7 ≤ pr.age.getD 0 ∧ 7 ≤ pr.staleness.getD 0)

/-- Model of the attention script's `hasChangesRequestedNoFollowUp`. -/
def hasChangesRequestedNoFollowUp (pr : GitHubPullRequest) : Bool :=
  if !(pr.hasChangesRequested.getD false) then false
  else decide (3 ≤ pr.staleness.getD 0)

/-- Model of the attention script's `isApprovedWaitingMerge`. -/
def isApprovedWaitingMerge (pr : GitHubPullRequest) : Bool :=
  if !(pr.isApproved.getD false) then false
  else decide (2 ≤ pr.staleness.getD 0)

/-- General attention bucket. -/
def NEEDS_ATTENTION : PRStatus := { priority := 0, label := "🚨 Needs Attention" }

/-- Stuck-draft bucket. -/
def DRAFT_STUCK : PRStatus :=
  { priority := 1, label := "📝 Draft Stuck (1+ week)" }

/-- Changes-requested-without-follow-up bucket. -/
def CHANGES_REQUESTED_NO_FOLLOWUP : PRStatus :=
  { priority := 2, label := "🔄 Changes Requested - No Follow-up" }

/-- Approved-awaiting-merge bucket. -/
def APPROVED_WAITING_MERGE : PRStatus :=
  { priority := 3, label := "✅ Approved - Waiting to Merge" }

/-- Model of the attention script's `getPRStatus` chain: draft-stuck, then
changes-requested-without-follow-up, then approved-awaiting-merge, then the
attention criteria, with needs-attention as the default fallback. -/
def getPRStatus (pr : GitHubPullRequest) : PRStatus :=
  if isDraftStuck pr then DRAFT_STUCK
  else if hasChangesRequestedNoFollowUp pr then CHANGES_REQUESTED_NO_FOLLOWUP
  else if isApprovedWaitingMerge pr then APPROVED_WAITING_MERGE
  else if meetsAttentionCriteria pr then NEEDS_ATTENTION
  else NEEDS_ATTENTION

end Attention

/-- Character allowed in a "plain" glob segment: not a separator and not
one of the wildcard/escape characters the compiler treats specially. -/
def plainChar (c : Char) : Bool :=
  !(c = '/' || c = '*' || c = '?' || c = '\\')

/-- No JavaScript line terminator anywhere in the string (JavaScript `.`
matches every other character). -/
def noLineTerm (s : String) : Bool := s.data.all (fun c => !isLineTerm c)

/-- A user with empty ancillary fields, for concrete test records. -/
def mkUser (login : String) : GitHubUser :=
  { login := login, id := 0, avatar_url := "", type := "User" }

/-- A review with the given author, state and submission instant. -/
def mkReview (n : Nat) (u : GitHubUser) (st : ReviewState) (b : String)
    (t : JSDate) : GitHubReview :=
  { id := n, user := u, state := st, body := b, submitted_at := t }

/-- A changed file with the given path and empty ancillary fields. -/
def mkFile (fname : String) : GitHubFile :=
  { filename := fname, additions := 0, deletions := 0, changes := 0,
    status := "modified", patch := none }

/-- A baseline pull-request record for building concrete test inputs. -/
def basePR : GitHubPullRequest :=
  { number := 1, title := "t", user := mkUser "alice",
    created_at := { day := 0, msOfDay := 0 },
    updated_at := { day := 0, msOfDay := 0 },
    html_url := "", draft := false, assignees := [], labels := [],
    requested_teams := none, isCommunityPR := none, files := none,
    codeOwnerTeams := none, age := none, staleness := none,
    isApproved := none, hasChangesRequested := none }

/-- A community-flagged PR carrying a priority label. -/
def communityUrgentPR : GitHubPullRequest :=
  { basePR with
    isCommunityPR := some true,
    labels := [{ name := "Urgent", color := "red", description := none }] }

/-- The draft PR of the attention scenario: age 10, staleness 8, no changes
requested, not approved. -/
def draftScenarioPR : GitHubPullRequest :=
  { basePR with
    draft := true, age := some 10, staleness := some 8,
    isApproved := some false, hasChangesRequested := some false }

/-- The same scenario with the draft flag cleared. -/
def nonDraftScenarioPR : GitHubPullRequest :=
  { draftScenarioPR with draft := false }

/-! ### Correctness of the derivative matcher -/

theorem derivs_zero (cs : List Char) : cs.foldl RE.deriv RE.zero = RE.zero := by
  induction cs with
  | nil => rfl
  | cons c cs ih => simpa [RE.deriv] using ih

theorem accepts_nil_nullable {r : RE} {s : List Char} (h : Accepts r s) :
    s = [] → r.nullable = true := by
  induction h with
  | one => intro _; rfl
  | lit c => intro h'; simp at h'
  | anyc c _ => intro h'; simp at h'
  | nsep c _ => intro h'; simp at h'
  | cat _ _ ih1 ih2 =>
    intro h'
    rcases List.append_eq_nil.mp h' with ⟨h1, h2⟩
    simp [RE.nullable, ih1 h1, ih2 h2]
  | altl _ ih => intro h'; simp [RE.nullable, ih h']
  | altr _ ih => intro h'; simp [RE.nullable, ih h']
  | starNil => intro _; rfl
  | starCat _ _ _ _ => intro _; rfl

theorem nullable_accepts {r : RE} (h : r.nullable = true) : Accepts r [] := by
  induction r with
  | zero => simp [RE.nullable] at h
  | one => exact .one
  | lit c => simp [RE.nullable] at h
  | anyc => simp [RE.nullable] at h
  | nsep => simp [RE.nullable] at h
  | cat a b iha ihb =>
    simp only [RE.nullable, Bool.and_eq_true] at h
    simpa using Accepts.cat (iha h.1) (ihb h.2)
  | alt a b iha ihb =>
    simp only [RE.nullable, Bool.or_eq_true] at h
    rcases h with h | h
    · exact .altl (iha h)
    · exact .altr (ihb h)
  | star a _ => exact .starNil

theorem accepts_cons_of_star {r : RE} {u : List Char} (h : Accepts r u) :
    ∀ (a : RE) (c : Char) (s : List Char), r = RE.star a → u = c :: s →
      ∃ s₁ t, s = s₁ ++ t ∧ Accepts a (c :: s₁) ∧ Accepts (RE.star a) t := by
  induction h with
  | one => intro a c s hr _; simp at hr
  | lit _ => intro a c s hr _; simp at hr
  | anyc _ _ => intro a c s hr _; simp at hr
  | nsep _ _ => intro a c s hr _; simp at hr
  | cat _ _ _ _ => intro a c s hr _; simp at hr
  | altl _ _ => intro a c s hr _; simp at hr
  | altr _ _ => intro a c s hr _; simp at hr
  | starNil => intro a c s _ hu; simp at hu
  | @starCat a0 s0 t0 h1 h2 _ ih2 =>
    intro a c s hr hu
    obtain rfl : a0 = a := by injection hr
    cases s0 with
    | nil =>
      simp only [List.nil_append] at hu
      exact ih2 a0 c s rfl hu
    | cons d s0' =>
      simp only [List.cons_append, List.cons.injEq] at hu
      obtain ⟨rfl, rfl⟩ := hu
      exact ⟨s0', t0, rfl, h1, h2⟩

theorem accepts_cat_elim {a b : RE} {u : List Char}
    (h : Accepts (RE.cat a b) u) :
    ∃ s t, u = s ++ t ∧ Accepts a s ∧ Accepts b t := by
  cases h with
  | cat h1 h2 => exact ⟨_, _, rfl, h1, h2⟩

theorem accepts_deriv {r : RE} {c : Char} {s : List Char} :
    Accepts (r.deriv c) s ↔ Accepts r (c :: s) := by
  induction r generalizing s with
  | zero =>
    constructor
    · intro h; cases h
    · intro h; cases h
  | one =>
    constructor
    · intro h; cases h
    · intro h; cases h
  | lit c' =>
    simp only [RE.deriv]
    split
    · rename_i hc
      subst hc
      constructor
      · intro h; cases h; exact .lit c'
      · intro h; cases h; exact .one
    · rename_i hc
      constructor
      · intro h; cases h
      · intro h; cases h; exact absurd rfl hc
  | anyc =>
    simp only [RE.deriv]
    split
    · rename_i hc
      constructor
      · intro h; cases h
      · intro h; cases h; rename_i hlt; rw [hc] at hlt; cases hlt
    · rename_i hc
      constructor
      · intro h; cases h; exact .anyc c (by simpa using hc)
      · intro h; cases h; exact .one
  | nsep =>
    simp only [RE.deriv]
    split
    · rename_i hc
      constructor
      · intro h; cases h
      · intro h; cases h; rename_i hne; exact absurd hc hne
    · rename_i hc
      constructor
      · intro h; cases h; exact .nsep c hc
      · intro h; cases h; exact .one
  | cat a b iha ihb =>
    simp only [RE.deriv]
    split
    · rename_i hn
      constructor
      · intro h
        cases h with
        | altl h' =>
          obtain ⟨u, v, rfl, h1, h2⟩ := accepts_cat_elim h'
          exact Accepts.cat (iha.mp h1) h2
        | altr h' =>
          simpa using Accepts.cat (nullable_accepts hn) (ihb.mp h')
      · intro h
        obtain ⟨u, v, hu, h1, h2⟩ := accepts_cat_elim h
        cases u with
        | nil =>
          rw [List.nil_append] at hu
          subst hu
          exact .altr (ihb.mpr h2)
        | cons d u' =>
          simp only [List.cons_append, List.cons.injEq] at hu
          obtain ⟨rfl, rfl⟩ := hu
          exact .altl (Accepts.cat (iha.mpr h1) h2)
    · rename_i hn
      constructor
      · intro h
        cases h with
        | cat h1 h2 =>
          exact Accepts.cat (iha.mp h1) h2
      · intro h
        obtain ⟨u, v, hu, h1, h2⟩ := accepts_cat_elim h
        cases u with
        | nil => exact absurd (accepts_nil_nullable h1 rfl) (by simpa using hn)
        | cons d u' =>
          simp only [List.cons_append, List.cons.injEq] at hu
          obtain ⟨rfl, rfl⟩ := hu
          exact Accepts.cat (iha.mpr h1) h2
  | alt a b iha ihb =>
    simp only [RE.deriv]
    constructor
    · intro h
      cases h with
      | altl h' => exact .altl (iha.mp h')
      | altr h' => exact .altr (ihb.mp h')
    · intro h
      cases h with
      | altl h' => exact .altl (iha.mpr h')
      | altr h' => exact .altr (ihb.mpr h')
  | star a iha =>
    simp only [RE.deriv]
    constructor
    · intro h
      obtain ⟨u, v, rfl, h1, h2⟩ := accepts_cat_elim h
      exact Accepts.starCat (iha.mp h1) h2
    · intro h
      obtain ⟨s₁, t, rfl, h1, h2⟩ := accepts_cons_of_star h a c s rfl rfl
      exact Accepts.cat (iha.mpr h1) h2

theorem matchList_iff {r : RE} {s : List Char} :
    matchList r s = true ↔ Accepts r s := by
  induction s generalizing r with
  | nil =>
    unfold matchList
    simp only [List.foldl_nil]
    exact ⟨nullable_accepts, fun h => accepts_nil_nullable h rfl⟩
  | cons c cs ih =>
    unfold matchList at *
    simp only [List.foldl_cons]
    exact ih.trans accepts_deriv

/-! ### Concatenation and repetition helper lemmas -/

theorem accepts_one_elim {u : List Char} (h : Accepts RE.one u) : u = [] := by
  cases h; rfl

theorem accepts_catList_append {l₁ l₂ : List RE} {s t : List Char}
    (h₁ : Accepts (catList l₁) s) (h₂ : Accepts (catList l₂) t) :
    Accepts (catList (l₁ ++ l₂)) (s ++ t) := by
  induction l₁ generalizing s with
  | nil =>
    obtain rfl := accepts_one_elim h₁
    simpa using h₂
  | cons r l ih =>
    obtain ⟨u, v, rfl, hu, hv⟩ := accepts_cat_elim h₁
    rw [List.cons_append, List.append_assoc]
    exact Accepts.cat hu (ih hv)

theorem accepts_lits (cs : List Char) : Accepts (catList (cs.map RE.lit)) cs := by
  induction cs with
  | nil => exact .one
  | cons c cs ih => exact Accepts.cat (Accepts.lit c) ih

theorem accepts_lits_append_elim (cs : List Char) {l : List RE} {s : List Char}
    (h : Accepts (catList (cs.map RE.lit ++ l)) s) :
    ∃ t, s = cs ++ t ∧ Accepts (catList l) t := by
  induction cs generalizing s with
  | nil => exact ⟨s, rfl, h⟩
  | cons c cs ih =>
    obtain ⟨u, v, rfl, hu, hv⟩ := accepts_cat_elim h
    cases hu
    obtain ⟨t, rfl, ht⟩ := ih hv
    exact ⟨t, rfl, ht⟩

theorem accepts_starAny {s : List Char} (h : ∀ c ∈ s, isLineTerm c = false) :
    Accepts (RE.star RE.anyc) s := by
  induction s with
  | nil => exact .starNil
  | cons c cs ih =>
    exact Accepts.starCat (Accepts.anyc c (h c (by simp)))
      (ih (fun d hd => h d (by simp [hd])))

theorem accepts_anyPlus {s : List Char} (hne : s ≠ [])
    (h : ∀ c ∈ s, isLineTerm c = false) : Accepts (rePlus RE.anyc) s := by
  cases s with
  | nil => exact absurd rfl hne
  | cons c cs =>
    exact Accepts.cat (Accepts.anyc c (h c (by simp)))
      (accepts_starAny (fun d hd => h d (by simp [hd])))

/-! ### Compilation success and failure -/

theorem data_eq_nil_iff {p : String} : p.data = [] ↔ p = "" :=
  ⟨String.ext, fun h => h ▸ rfl⟩

theorem patternOk_false_iff {p : String} :
    patternOk p = false ↔ (hasTripleStar p.data = true ∨ p = "") := by
  unfold patternOk
  cases h1 : hasTripleStar p.data with
  | true => simp
  | false => simp [data_eq_nil_iff]

theorem parsePattern_eq_ok {p : String} (h : patternOk p = true) :
    ∃ l, parsePattern p = .ok l := by
  simp only [patternOk, Bool.and_eq_true, Bool.not_eq_true',
    decide_eq_false_iff_not] at h
  obtain ⟨h1, h2⟩ := h
  unfold parsePattern
  rw [h1]
  simp only [Bool.false_eq_true, if_false, if_neg h2]
  split
  · exact ⟨_, rfl⟩
  · exact ⟨_, rfl⟩

theorem parsePattern_eq_error {p : String} (h : patternOk p = false) :
    ∃ e, parsePattern p = .error e := by
  rcases patternOk_false_iff.mp h with h1 | h1
  · exact ⟨_, by unfold parsePattern; rw [h1]; rfl⟩
  · subst h1
    exact ⟨_, rfl⟩

theorem parsePattern_error_iff {p : String} :
    (∃ e, parsePattern p = .error e) ↔ patternOk p = false := by
  cases h : patternOk p with
  | true =>
    obtain ⟨l, hl⟩ := parsePattern_eq_ok h
    simp [hl]
  | false =>
    obtain ⟨e, he⟩ := parsePattern_eq_error h
    simp [he]

/-- C8: pattern compilation fails exactly on patterns containing three (or
more) consecutive asterisks and on the empty pattern; every other pattern
string compiles to a matcher without raising. -/
theorem c8_pattern_error_exactly_on_malformed (p : String) :
    (∃ e, parsePattern p = .error e) ↔ (hasTripleStar p.data = true ∨ p = "") :=
  parsePattern_error_iff.trans patternOk_false_iff

/-- Witness for C8 at the two documented malformed patterns and one
well-formed one. -/
theorem c8_witness :
    (∃ e, parsePattern "***bad" = .error e) ∧
      (∃ e, parsePattern "" = .error e) ∧
      ¬(∃ e, parsePattern "README.md" = .error e) :=
  ⟨(c8_pattern_error_exactly_on_malformed "***bad").mpr (Or.inl rfl),
   (c8_pattern_error_exactly_on_malformed "").mpr (Or.inr rfl),
   fun h => by
    rcases (c8_pattern_error_exactly_on_malformed "README.md").mp h with h1 | h1
    · exact absurd h1 (by decide)
    · exact absurd h1 (by decide)⟩

/-- C4 counterexample: the matcher compiled from the pattern `"/"` is the
regex `^$`, which accepts the empty string, so it is not true that it fails
on every path including the empty one. -/
theorem c4_counterexample : patternTest "/" "" = .ok true := rfl

/-- C4 (amended): the single-character pattern `"/"` compiles to a matcher
that rejects every non-empty path string; the empty string is the one
exception, since the compiled regex is `^$`. -/
theorem c4_amended_slash_matches_only_empty (p : String) (h : p ≠ "") :
    patternTest "/" p = .ok false := by
  have hd : p.data ≠ [] := fun hh => h (data_eq_nil_iff.mp hh)
  have h0 : parsePattern "/" = .ok [] := rfl
  unfold patternTest
  rw [h0]
  show Except.ok (reTest [] p) = Except.ok false
  unfold reTest
  cases hp : p.data with
  | nil => exact absurd hp hd
  | cons c cs =>
    unfold matchList
    rw [List.foldl_cons, show RE.deriv (catList []) c = RE.zero from rfl,
      derivs_zero]
    rfl

/-- Witness for C4's amended statement at a concrete non-empty path. -/
theorem c4_witness : patternTest "/" "docs" = .ok false :=
  c4_amended_slash_matches_only_empty "docs" (by decide)

/-- C2 counterexample: with the later instant first, the loop in
`getBusinessDays` never runs and the function returns 0, not the weekday
count of the enclosing range (day 1 is a Friday, day 4 the following
Monday, so the enclosing range holds 2 weekdays). -/
theorem c2_counterexample :
    getBusinessDays ⟨4, 0⟩ ⟨1, 0⟩ = 0 ∧ getBusinessDays ⟨1, 0⟩ ⟨4, 0⟩ = 2 ∧
      getBusinessDays ⟨4, 0⟩ ⟨1, 0⟩ ≠ getBusinessDays ⟨1, 0⟩ ⟨4, 0⟩ := by
  refine ⟨by decide, by decide, by decide⟩

/-- C2 (amended): when the end instant falls on an earlier day than the
start instant, `getBusinessDays` returns 0 (the `while` loop body never
executes); the result is non-negative but not symmetric in its
arguments. -/
theorem c2_amended_end_before_start_yields_zero (s e : JSDate)
    (h : e.day < s.day) : getBusinessDays s e = 0 := by
  unfold getBusinessDays weekdayCount
  have h0 : (e.day - s.day + 1).toNat = 0 := by omega
  rw [h0]
  rfl

/-- Witness for C2's amended statement: Monday back to the previous
Friday. -/
theorem c2_witness : getBusinessDays ⟨4, 0⟩ ⟨1, 0⟩ = 0 :=
  c2_amended_end_before_start_yields_zero ⟨4, 0⟩ ⟨1, 0⟩ (by decide)

/-- C9: the attention predicate requires, for drafts, both a week of age
and a week of staleness, and for non-drafts only a week of staleness; in
the bucket chain the draft scenario (age 10, staleness 8, nothing
requested or approved) lands in the stuck-draft bucket while the identical
non-draft PR falls through to the general needs-attention bucket. -/
theorem c9_attention_criteria_and_buckets :
    (∀ pr : GitHubPullRequest,
      (pr.draft = true →
        (Attention.meetsAttentionCriteria pr = true ↔
          7 ≤ pr.age.getD 0 ∧ 7 ≤ pr.staleness.getD 0)) ∧
      (pr.draft = false →
        (Attention.meetsAttentionCriteria pr = true ↔
          7 ≤ pr.staleness.getD 0))) ∧
    Attention.getPRStatus draftScenarioPR = Attention.DRAFT_STUCK ∧
    Attention.getPRStatus nonDraftScenarioPR = Attention.NEEDS_ATTENTION := by
  refine ⟨fun pr => ⟨?_, ?_⟩, rfl, rfl⟩
  · intro hd
    simp [Attention.meetsAttentionCriteria, hd]
  · intro hd
    simp [Attention.meetsAttentionCriteria, hd]

/-- Witness for C9 applying the general criterion at the concrete draft
scenario PR. -/
theorem c9_witness :
    Attention.meetsAttentionCriteria draftScenarioPR = true ↔
      7 ≤ draftScenarioPR.age.getD 0 ∧ 7 ≤ draftScenarioPR.staleness.getD 0 :=
  (c9_attention_criteria_and_buckets.1 draftScenarioPR).1 rfl

/-- C3: only the most recent review per distinct author counts: with two
reviews from the same author, APPROVED then a later CHANGES_REQUESTED, the
metrics report not-approved and changes-requested; an earlier APPROVED from
a different author still makes the metrics approved. -/
theorem c3_latest_review_per_author (u v : GitHubUser) (n0 n1 n2 : Nat)
    (b0 b1 b2 : String) (t0 t1 t2 : JSDate) (pr : GitHubPullRequest)
    (comments : List GitHubComment) (now : JSDate)
    (hne : v.login ≠ u.login)
    (_h01 : JSDate.ltb t0 t1 = true) (h12 : JSDate.ltb t1 t2 = true) :
    (calculateMetrics pr comments
        [mkReview n1 u .APPROVED b1 t1, mkReview n2 u .CHANGES_REQUESTED b2 t2]
        now).isApproved = false ∧
    (calculateMetrics pr comments
        [mkReview n1 u .APPROVED b1 t1, mkReview n2 u .CHANGES_REQUESTED b2 t2]
        now).hasChangesRequested = true ∧
    (calculateMetrics pr comments
        [mkReview n0 v .APPROVED b0 t0, mkReview n1 u .APPROVED b1 t1,
          mkReview n2 u .CHANGES_REQUESTED b2 t2] now).isApproved = true := by
  have hbe : (v.login == u.login) = false := beq_eq_false_iff_ne.mpr hne
  refine ⟨?_, ?_, ?_⟩ <;>
    simp [calculateMetrics, latestReviewsByUser, updateLatest, mkReview,
      List.find?, hbe, hne, h12]

/-- Witness for C3 at concrete users and instants. -/
theorem c3_witness :
    (calculateMetrics basePR []
        [mkReview 1 (mkUser "alice") .APPROVED "r1" ⟨1, 0⟩,
          mkReview 2 (mkUser "alice") .CHANGES_REQUESTED "r2" ⟨2, 0⟩]
        ⟨5, 0⟩).isApproved = false ∧
    (calculateMetrics basePR []
        [mkReview 1 (mkUser "alice") .APPROVED "r1" ⟨1, 0⟩,
          mkReview 2 (mkUser "alice") .CHANGES_REQUESTED "r2" ⟨2, 0⟩]
        ⟨5, 0⟩).hasChangesRequested = true ∧
    (calculateMetrics basePR []
        [mkReview 0 (mkUser "bob") .APPROVED "r0" ⟨0, 0⟩,
          mkReview 1 (mkUser "alice") .APPROVED "r1" ⟨1, 0⟩,
          mkReview 2 (mkUser "alice") .CHANGES_REQUESTED "r2" ⟨2, 0⟩]
        ⟨5, 0⟩).isApproved = true :=
  c3_latest_review_per_author (mkUser "alice") (mkUser "bob") 0 1 2 "r0" "r1"
    "r2" ⟨0, 0⟩ ⟨1, 0⟩ ⟨2, 0⟩ basePR [] ⟨5, 0⟩ (by decide) (by decide)
    (by decide)

/-! ### Ownership resolution as a union -/

theorem mem_insertTeam {acc : List String} {t x : String} :
    x ∈ insertTeam acc t ↔ x ∈ acc ∨ x = t := by
  unfold insertTeam
  split
  · rename_i h
    constructor
    · exact Or.inl
    · rintro (hx | rfl)
      · exact hx
      · exact h
  · simp

theorem mem_addTeams {ts acc : List String} {x : String} :
    x ∈ addTeams acc ts ↔ x ∈ acc ∨ x ∈ ts := by
  induction ts generalizing acc with
  | nil => simp [addTeams]
  | cons t ts ih =>
    show x ∈ addTeams (insertTeam acc t) ts ↔ _
    rw [ih, mem_insertTeam]
    simp [or_assoc]

theorem ownerScanRules_ok (f : GitHubFile) {rules : List CodeOwnerRule}
    (h : ∀ r ∈ rules, patternOk r.pattern = true) (acc : List String) :
    ∃ l, ownerScanRules f.filename rules acc = .ok l ∧
      ∀ x, x ∈ l ↔ x ∈ acc ∨ ∃ r ∈ rules,
        ruleMatchesFile r f = true ∧ x ∈ r.teams := by
  induction rules generalizing acc with
  | nil => exact ⟨acc, rfl, by simp⟩
  | cons r rs ih =>
    obtain ⟨re, hre⟩ := parsePattern_eq_ok (h r (by simp))
    have hrest : ∀ r2 ∈ rs, patternOk r2.pattern = true :=
      fun r2 hr2 => h r2 (by simp [hr2])
    obtain ⟨l, hl, hmem⟩ := ih hrest
      (if reTest re f.filename then addTeams acc r.teams else acc)
    refine ⟨l, by simp only [ownerScanRules, hre]; exact hl, ?_⟩
    intro x
    rw [hmem x]
    cases hb : reTest re f.filename with
    | true =>
      have hrm : ruleMatchesFile r f = true := by
        unfold ruleMatchesFile
        rw [hre]
        exact hb
      rw [if_pos rfl, mem_addTeams]
      constructor
      · rintro ((hx | hx) | ⟨r2, hr2, hm2, hx⟩)
        · exact Or.inl hx
        · exact Or.inr ⟨r, by simp, hrm, hx⟩
        · exact Or.inr ⟨r2, by simp [hr2], hm2, hx⟩
      · rintro (hx | ⟨r2, hr2, hm2, hx⟩)
        · exact Or.inl (Or.inl hx)
        · rcases List.mem_cons.mp hr2 with rfl | hr2
          · exact Or.inl (Or.inr hx)
          · exact Or.inr ⟨r2, hr2, hm2, hx⟩
    | false =>
      have hrm : ruleMatchesFile r f = false := by
        unfold ruleMatchesFile
        rw [hre]
        exact hb
      rw [if_neg (by simp [hb])]
      constructor
      · rintro (hx | ⟨r2, hr2, hm2, hx⟩)
        · exact Or.inl hx
        · exact Or.inr ⟨r2, by simp [hr2], hm2, hx⟩
      · rintro (hx | ⟨r2, hr2, hm2, hx⟩)
        · exact Or.inl hx
        · rcases List.mem_cons.mp hr2 with rfl | hr2
          · rw [hrm] at hm2
            cases hm2
          · exact Or.inr ⟨r2, hr2, hm2, hx⟩

theorem ownerScanFiles_ok (files : List GitHubFile)
    {rules : List CodeOwnerRule}
    (h : ∀ r ∈ rules, patternOk r.pattern = true) (acc : List String) :
    ∃ l, ownerScanFiles files rules acc = .ok l ∧
      ∀ x, x ∈ l ↔ x ∈ acc ∨ ∃ f ∈ files, ∃ r ∈ rules,
        ruleMatchesFile r f = true ∧ x ∈ r.teams := by
  induction files generalizing acc with
  | nil => exact ⟨acc, rfl, by simp⟩
  | cons f fs ih =>
    obtain ⟨l1, hl1, hm1⟩ := ownerScanRules_ok f h acc
    obtain ⟨l, hl, hm⟩ := ih l1
    refine ⟨l, by simp only [ownerScanFiles, hl1]; exact hl, ?_⟩
    intro x
    rw [hm x, hm1 x]
    constructor
    · rintro ((hx | ⟨r, hr, hmr, hx⟩) | ⟨f2, hf2, r, hr, hmr, hx⟩)
      · exact Or.inl hx
      · exact Or.inr ⟨f, by simp, r, hr, hmr, hx⟩
      · exact Or.inr ⟨f2, by simp [hf2], r, hr, hmr, hx⟩
    · rintro (hx | ⟨f2, hf2, r, hr, hmr, hx⟩)
      · exact Or.inl (Or.inl hx)
      · rcases List.mem_cons.mp hf2 with rfl | hf2
        · exact Or.inl (Or.inr ⟨r, hr, hmr, hx⟩)
        · exact Or.inr ⟨f2, hf2, r, hr, hmr, hx⟩

theorem getCodeOwnerTeams_ok (files : List GitHubFile)
    {rules : List CodeOwnerRule}
    (h : ∀ r ∈ rules, patternOk r.pattern = true) :
    ∃ l, getCodeOwnerTeams files rules = .ok l ∧
      ∀ x, x ∈ l ↔ ∃ f ∈ files, ∃ r ∈ rules,
        ruleMatchesFile r f = true ∧ x ∈ r.teams := by
  obtain ⟨l, hl, hm⟩ := ownerScanFiles_ok files h []
  exact ⟨l, hl, fun x => by rw [hm x]; simp⟩

/-- C7: when every rule compiles, ownership resolution succeeds and its
result, viewed as a set, is exactly the union of the teams of all (file,
rule) pairs whose matcher accepts the file; permuting the file list or the
rule list leaves that set unchanged, and an empty file list yields the
empty set rather than an error. -/
theorem c7_ownership_union_order_independent
    (files files2 : List GitHubFile) (rules rules2 : List CodeOwnerRule)
    (hok : ∀ r ∈ rules, patternOk r.pattern = true)
    (hpf : files.Perm files2) (hpr : rules.Perm rules2) :
    ∃ l l2, getCodeOwnerTeams files rules = .ok l ∧
      getCodeOwnerTeams files2 rules2 = .ok l2 ∧
      (∀ x, x ∈ l ↔ ∃ f ∈ files, ∃ r ∈ rules,
        ruleMatchesFile r f = true ∧ x ∈ r.teams) ∧
      (∀ x, x ∈ l ↔ x ∈ l2) ∧
      getCodeOwnerTeams [] rules = .ok [] := by
  have hok2 : ∀ r ∈ rules2, patternOk r.pattern = true :=
    fun r hr => hok r (hpr.mem_iff.mpr hr)
  obtain ⟨l, hl, hm⟩ := getCodeOwnerTeams_ok files hok
  obtain ⟨l2, hl2, hm2⟩ := getCodeOwnerTeams_ok files2 hok2
  refine ⟨l, l2, hl, hl2, hm, ?_, rfl⟩
  intro x
  rw [hm x, hm2 x]
  constructor
  · rintro ⟨f, hf, r, hr, hmr, hx⟩
    exact ⟨f, hpf.mem_iff.mp hf, r, hpr.mem_iff.mp hr, hmr, hx⟩
  · rintro ⟨f, hf, r, hr, hmr, hx⟩
    exact ⟨f, hpf.mem_iff.mpr hf, r, hpr.mem_iff.mpr hr, hmr, hx⟩

/-- Witness for C7 at concrete files and rules with swapped orders. -/
theorem c7_witness :
    ∃ l l2,
      getCodeOwnerTeams [mkFile "docs/a.md", mkFile "src/x.ts"]
        [{ pattern := "/docs/", teams := ["docteam"] },
          { pattern := "x.ts", teams := ["devs"] }] = .ok l ∧
      getCodeOwnerTeams [mkFile "src/x.ts", mkFile "docs/a.md"]
        [{ pattern := "x.ts", teams := ["devs"] },
          { pattern := "/docs/", teams := ["docteam"] }] = .ok l2 ∧
      (∀ x, x ∈ l ↔ ∃ f ∈ [mkFile "docs/a.md", mkFile "src/x.ts"],
        ∃ r ∈ [({ pattern := "/docs/", teams := ["docteam"] } : CodeOwnerRule),
          { pattern := "x.ts", teams := ["devs"] }],
        ruleMatchesFile r f = true ∧ x ∈ r.teams) ∧
      (∀ x, x ∈ l ↔ x ∈ l2) ∧
      getCodeOwnerTeams []
        [({ pattern := "/docs/", teams := ["docteam"] } : CodeOwnerRule),
          { pattern := "x.ts", teams := ["devs"] }] = .ok [] :=
  c7_ownership_union_order_independent
    [mkFile "docs/a.md", mkFile "src/x.ts"]
    [mkFile "src/x.ts", mkFile "docs/a.md"]
    [{ pattern := "/docs/", teams := ["docteam"] },
      { pattern := "x.ts", teams := ["devs"] }]
    [{ pattern := "x.ts", teams := ["devs"] },
      { pattern := "/docs/", teams := ["docteam"] }]
    (by decide)
    (List.Perm.swap (mkFile "src/x.ts") (mkFile "docs/a.md") [])
    (List.Perm.swap ({ pattern := "x.ts", teams := ["devs"] } : CodeOwnerRule)
      ({ pattern := "/docs/", teams := ["docteam"] } : CodeOwnerRule) [])

/-- C1 counterexample: a community-flagged PR carrying the priority label
"Urgent" is classified High-Priority, not Community — the label check runs
before the community check in the classifier. -/
theorem c1_counterexample :
    Triage.getPRStatus communityUrgentPR [] = .ok Triage.HIGH_PRIORITY ∧
      Triage.HIGH_PRIORITY ≠ Triage.COMMUNITY_PRS ∧
      communityUrgentPR.isCommunityPR.getD false = true :=
  ⟨rfl, by decide, rfl⟩

/-- C1 (amended): the priority-label predicate is step 1 and the community
predicate step 2: a community-flagged PR is classified Community regardless
of its review state and owning teams provided it carries no priority label
(and all rule patterns compile, since resolution runs before the community
check). -/
theorem c1_amended_community_when_no_priority_label
    (pr : GitHubPullRequest) (rules : List CodeOwnerRule)
    (hcomm : pr.isCommunityPR.getD false = true)
    (hlab : ∀ lab ∈ pr.labels, PRIORITY_LABELS.contains lab.name = false)
    (hok : ∀ r ∈ rules, patternOk r.pattern = true) :
    Triage.getPRStatus pr rules = .ok Triage.COMMUNITY_PRS := by
  have hany :
      pr.labels.any (fun label => PRIORITY_LABELS.contains label.name) =
        false := by
    rw [List.any_eq_false]
    intro lab hlabmem
    simpa using hlab lab hlabmem
  obtain ⟨l, hl, _⟩ := getCodeOwnerTeams_ok (pr.files.getD []) hok
  unfold Triage.getPRStatus
  rw [hany]
  simp only [Bool.false_eq_true, if_false, hl]
  simp [hcomm]

/-- Witness for C1's amended statement: the same community PR with no
labels is classified Community. -/
theorem c1_witness :
    Triage.getPRStatus { communityUrgentPR with labels := [] } [] =
      .ok Triage.COMMUNITY_PRS :=
  c1_amended_community_when_no_priority_label
    { communityUrgentPR with labels := [] } [] rfl (by simp) (by simp)

theorem ownerScanRules_error (fname : String) {rules : List CodeOwnerRule}
    {r : CodeOwnerRule} (hr : r ∈ rules)
    (hbad : patternOk r.pattern = false) :
    ∀ acc, ∃ e, ownerScanRules fname rules acc = .error e := by
  induction rules with
  | nil => cases hr
  | cons r0 rs ih =>
    intro acc
    rcases List.mem_cons.mp hr with rfl | hr2
    · obtain ⟨e, he⟩ := parsePattern_eq_error hbad
      exact ⟨e, by simp only [ownerScanRules, he]⟩
    · cases hp : parsePattern r0.pattern with
      | error e => exact ⟨e, by simp only [ownerScanRules, hp]⟩
      | ok re =>
        obtain ⟨e, he⟩ := ih hr2 _
        exact ⟨e, by simp only [ownerScanRules, hp]; exact he⟩

/-- C10: patterns are compiled during resolution, not at load time: as soon
as the changed-file list is non-empty, one malformed rule anywhere in the
rule list makes `getCodeOwnerTeams` fail with the compilation error, even
if that rule would not have matched any file. -/
theorem c10_resolution_error_on_malformed_rule
    (files : List GitHubFile) (rules : List CodeOwnerRule)
    (r : CodeOwnerRule) (hne : files ≠ []) (hr : r ∈ rules)
    (hbad : patternOk r.pattern = false) :
    ∃ e, getCodeOwnerTeams files rules = .error e := by
  cases files with
  | nil => exact absurd rfl hne
  | cons f fs =>
    obtain ⟨e, he⟩ := ownerScanRules_error f.filename hr hbad []
    exact ⟨e, by unfold getCodeOwnerTeams; simp only [ownerScanFiles, he]⟩

/-- Witness for C10: one well-formed non-matching file plus one malformed
rule that matches nothing. -/
theorem c10_witness :
    ∃ e, getCodeOwnerTeams [mkFile "README.md"]
      [{ pattern := "/docs/", teams := ["docteam"] },
        { pattern := "***bad", teams := ["t"] }] = .error e :=
  c10_resolution_error_on_malformed_rule [mkFile "README.md"]
    [{ pattern := "/docs/", teams := ["docteam"] },
      { pattern := "***bad", teams := ["t"] }]
    { pattern := "***bad", teams := ["t"] }
    (by decide) (by simp) (by decide)

/-! ### Compilation of plain single-segment patterns -/

theorem startsTriple_false {c : Char} {l : List Char} (h : c ≠ '*') :
    startsTriple (c :: l) = false := by
  cases l with
  | nil => rfl
  | cons b l2 =>
    cases l2 with
    | nil => rfl
    | cons d l3 => simp [startsTriple, h]

theorem hasTripleStar_eq_false {cs : List Char} (h : ∀ c ∈ cs, c ≠ '*') :
    hasTripleStar cs = false := by
  induction cs with
  | nil => rfl
  | cons c rest ih =>
    show (startsTriple (c :: rest) || hasTripleStar rest) = false
    rw [startsTriple_false (h c (by simp)),
      ih (fun d hd => h d (by simp [hd]))]
    rfl

theorem splitSeg_no_slash {cs : List Char} (h : ∀ c ∈ cs, c ≠ '/') :
    splitSeg cs = [cs] := by
  induction cs with
  | nil => rfl
  | cons c rest ih =>
    have hh := ih (fun d hd => h d (by simp [hd]))
    unfold splitSeg
    rw [hh]
    simp [h c (by simp)]

theorem escSeg_plain {cs : List Char} (h : ∀ c ∈ cs, plainChar c = true) :
    escSeg cs false = cs.map RE.lit := by
  induction cs with
  | nil => rfl
  | cons c rest ih =>
    have hc := h c (by simp)
    simp only [plainChar, Bool.not_eq_true', Bool.or_eq_false_iff,
      decide_eq_false_iff_not] at hc
    obtain ⟨⟨⟨h1, h2⟩, h3⟩, h4⟩ := hc
    rw [show escSeg (c :: rest) false = RE.lit c :: escSeg rest false from by
      simp only [escSeg]
      rw [if_neg h4, if_neg h2, if_neg h3]]
    rw [ih (fun d hd => h d (by simp [hd]))]
    rfl

theorem parsePattern_plain_single {p : String} (hp : p.data ≠ [])
    (hplain : ∀ c ∈ p.data, plainChar c = true) :
    parsePattern p = .ok
      (reOpt (RE.cat (rePlus RE.anyc) (RE.lit '/')) ::
        (p.data.map RE.lit ++
          [reOpt (RE.cat (RE.lit '/') (RE.star RE.anyc))])) := by
  have hprops : ∀ c ∈ p.data,
      ((¬c = '/' ∧ ¬c = '*') ∧ ¬c = '?') ∧ ¬c = '\\' := by
    intro c hc
    have := hplain c hc
    simpa only [plainChar, Bool.not_eq_true', Bool.or_eq_false_iff,
      decide_eq_false_iff_not] using this
  have hslash : ∀ c ∈ p.data, c ≠ '/' := fun c hc => (hprops c hc).1.1.1
  have hstar : ∀ c ∈ p.data, c ≠ '*' := fun c hc => (hprops c hc).1.1.2
  have hneS : p.data ≠ ['/'] := fun hh => hslash '/' (by rw [hh]; simp) rfl
  have hne2 : p.data ≠ ['*', '*'] := fun hh => hstar '*' (by rw [hh]; simp) rfl
  have hne1 : p.data ≠ ['*'] := fun hh => hstar '*' (by rw [hh]; simp) rfl
  unfold parsePattern
  rw [hasTripleStar_eq_false hstar]
  simp only [Bool.false_eq_true, if_false, if_neg hp, if_neg hneS,
    splitSeg_no_slash hslash]
  rw [show fixLead [p.data] = [['*', '*'], p.data] from by
    simp [fixLead, hp, hne2]]
  rw [show fixTrail [['*', '*'], p.data] = [['*', '*'], p.data] from by
    unfold fixTrail
    apply if_neg
    rintro ⟨-, hlast⟩
    simp only [List.getLast?, Option.some.injEq] at hlast
    exact hp hlast]
  rw [show buildSegs [['*', '*'], p.data] true false =
      reOpt (RE.cat (rePlus RE.anyc) (RE.lit '/')) ::
        (segPieces p.data false true false).1 from rfl]
  rw [show (segPieces p.data false true false).1 =
      escSeg p.data false ++
        [reOpt (RE.cat (RE.lit '/') (RE.star RE.anyc))] from by
    unfold segPieces
    rw [if_neg hne2, if_neg hne1]
    rfl]
  rw [escSeg_plain hplain]

/-- C5: a pattern with no leading slash consisting of a single plain-name
segment gets a `**` segment prepended, so its matcher accepts that name
bare and under any non-empty directory prefix; in particular
`README.md` matches both `README.md` and `a/b/README.md`. -/
theorem c5_single_segment_any_depth (p q : String) (hp : p.data ≠ [])
    (hplain : ∀ c ∈ p.data, plainChar c = true)
    (hq : q.data ≠ []) (hqlt : ∀ c ∈ q.data, isLineTerm c = false) :
    patternTest p p = .ok true ∧ patternTest p (q ++ "/" ++ p) = .ok true := by
  have hpp := parsePattern_plain_single hp hplain
  have hrest : Accepts
      (catList (p.data.map RE.lit ++
        [reOpt (RE.cat (RE.lit '/') (RE.star RE.anyc))])) p.data := by
    have hdesc : Accepts
        (catList [reOpt (RE.cat (RE.lit '/') (RE.star RE.anyc))]) [] :=
      Accepts.cat (Accepts.altl Accepts.one) Accepts.one
    simpa using accepts_catList_append (accepts_lits p.data) hdesc
  constructor
  · unfold patternTest
    rw [hpp]
    have hacc : Accepts (catList
        (reOpt (RE.cat (rePlus RE.anyc) (RE.lit '/')) ::
          (p.data.map RE.lit ++
            [reOpt (RE.cat (RE.lit '/') (RE.star RE.anyc))]))) p.data :=
      Accepts.cat (Accepts.altl Accepts.one) hrest
    exact congrArg Except.ok (matchList_iff.mpr hacc)
  · unfold patternTest
    rw [hpp]
    have hlead : Accepts (reOpt (RE.cat (rePlus RE.anyc) (RE.lit '/')))
        (q.data ++ ['/']) :=
      Accepts.altr (Accepts.cat (accepts_anyPlus hq hqlt) (Accepts.lit '/'))
    have hacc : Accepts (catList
        (reOpt (RE.cat (rePlus RE.anyc) (RE.lit '/')) ::
          (p.data.map RE.lit ++
            [reOpt (RE.cat (RE.lit '/') (RE.star RE.anyc))])))
        ((q ++ "/" ++ p).data) := by
      have h2 := Accepts.cat hlead hrest
      have hd : (q ++ "/" ++ p).data = (q.data ++ ['/']) ++ p.data := by
        simp [String.data_append]
      rw [hd]
      exact h2
    exact congrArg Except.ok (matchList_iff.mpr hacc)

/-- Witness for C5 at the spec's example pattern and a two-level
directory prefix. -/
theorem c5_witness :
    patternTest "README.md" "README.md" = .ok true ∧
      patternTest "README.md" ("a/b" ++ "/" ++ "README.md") = .ok true :=
  c5_single_segment_any_depth "README.md" "a/b" (by decide) (by decide)
    (by decide) (by decide)

/-- C6: a root-relative pattern with trailing slash compiles (for
`"/docs/"`) to `^docs/.*$`, which accepts exactly the paths strictly below
the directory: every line-terminator-free path matches precisely when it
extends `"docs/"`; in particular `docs/anything/here.md` matches while the
sibling `docsother/x` and the bare directory name `docs` do not. -/
theorem c6_trailing_slash_strict_descendants :
    (∀ s : String, (∀ c ∈ s.data, isLineTerm c = false) →
      (patternTest "/docs/" s = .ok true ↔ ∃ t : String, s = "docs/" ++ t)) ∧
    patternTest "/docs/" "docs/anything/here.md" = .ok true ∧
    patternTest "/docs/" "docsother/x" = .ok false ∧
    patternTest "/docs/" "docs" = .ok false := by
  refine ⟨?_, rfl, rfl, rfl⟩
  intro s hs
  have hparse : parsePattern "/docs/" =
      .ok (['d', 'o', 'c', 's', '/'].map RE.lit ++ [RE.star RE.anyc]) := rfl
  unfold patternTest
  rw [hparse]
  simp only [Except.map, Except.ok.injEq]
  constructor
  · intro hb
    have hacc := matchList_iff.mp hb
    obtain ⟨t, hst, -⟩ :=
      accepts_lits_append_elim ['d', 'o', 'c', 's', '/'] hacc
    refine ⟨⟨t⟩, ?_⟩
    apply String.ext
    rw [String.data_append]
    exact hst
  · rintro ⟨t, rfl⟩
    have ht : ∀ c ∈ t.data, isLineTerm c = false := by
      intro c hc
      apply hs
      rw [String.data_append]
      simp [hc]
    have htail : Accepts (catList [RE.star RE.anyc]) t.data := by
      simpa using Accepts.cat (accepts_starAny ht) Accepts.one
    have hacc : Accepts
        (catList (['d', 'o', 'c', 's', '/'].map RE.lit ++ [RE.star RE.anyc]))
        (("docs/" ++ t).data) := by
      rw [String.data_append]
      exact accepts_catList_append (accepts_lits ['d', 'o', 'c', 's', '/'])
        htail
    exact matchList_iff.mpr hacc

/-- Witness for C6 applying the strict-descendant characterisation at a
concrete path under `docs/`. -/
theorem c6_witness : patternTest "/docs/" "docs/x" = .ok true :=
  (c6_trailing_slash_strict_descendants.1 "docs/x" (by decide)).mpr ⟨"x", rfl⟩

end PRC
